import Mathlib

/-!
Verification development for the number-DNA analysis pipeline.

The Lean definitions below are shallow embeddings of the Python sources:
  * `FieldAnalyzer.handle_5_between_9_1` and `FieldAnalyzer.transform_numbers`
    (src/core/field_analyzer.py, the class-based variant),
  * `apply_advanced_rules` (controller/analysis_controller.py),
  * `generate_lucky_numbers`, `generate_lucky_number_chain_by_cancel_fields`,
    `generate_multiple_lucky_numbers` (core/recommendation_engine.py),
  * `AnalyzeController.generate_full_lucky_numbers` (controller/analysis_controller.py),
  * `is_valid_digit_length`, `is_valid_fixed_num`, `validate_all` (utils/validators.py).

Strings are modelled as `List Char`, two-character digit pairs as `Char × Char`,
Python `Counter` count maps as total functions (reading a missing key yields 0,
exactly as `Counter.__getitem__` does), and the random generator as an
explicit stream of naturals consumed one draw at a time.
The source names its field categories with Chinese strings, which are not valid
Lean identifiers; the spec's English names are used instead, with the mapping
伏位 = Resting, 生氣 = LifeForce, 天醫 = HeavenDoctor, 延年 = Longevity,
絕命 = Doom, 六煞 = SixEvils, 禍害 = Calamity, 五鬼 = FiveGhosts, 未知 = Unknown.
-/

/-- The eight magnetic-field categories plus the sentinel 未知 (Unknown). -/
inductive MagField where
  | Resting
  | LifeForce
  | HeavenDoctor
  | Longevity
  | Doom
  | SixEvils
  | Calamity
  | FiveGhosts
  | Unknown
deriving DecidableEq, Repr

open MagField

/-! ## Transformer (core/field_analyzer.py, FieldAnalyzer) -/

/-- Embeds `FieldAnalyzer.handle_5_between_9_1`: scan left to right while at
least three characters remain (`i < len(s) - 2`); rewrite `951` to `9191` and
`159` to `1919`, advancing by 3 on a match and by 1 otherwise; the final
`result += s[i:]` appends the unscanned tail verbatim. -/
def handle_5_between_9_1 : List Char → List Char
  | a :: b :: c :: rest =>
    if a = '9' ∧ b = '5' ∧ c = '1' then
      '9' :: '1' :: '9' :: '1' :: handle_5_between_9_1 rest
    else if a = '1' ∧ b = '5' ∧ c = '9' then
      '1' :: '9' :: '1' :: '9' :: handle_5_between_9_1 rest
    else
      a :: handle_5_between_9_1 (b :: c :: rest)
  | s => s

/-- Embeds `number_str[0] + number_str[1:-1].replace('5', '') + number_str[-1]`,
guarded by `len(number_str) > 2`. -/
def removeMiddle5 (s : List Char) : List Char :=
  if s.length ≤ 2 then s
  else
    s.take 1 ++ ((s.drop 1).take (s.length - 2)).filter (fun c => c ≠ '5')
      ++ s.drop (s.length - 1)

/-- Embeds the leading-`5` rule: `number_str = number_str[1] * 2 + number_str[1:]`
when the first character is `5` (only reached under `len(number_str) >= 2`). -/
def leading5 (s : List Char) : List Char :=
  match s with
  | a :: b :: rest => if a = '5' then b :: b :: b :: rest else s
  | _ => s

/-- Embeds the trailing-`5` rule:
`number_str = number_str[:-2] + number_str[-2] * 2` when the last character
is `5` (only reached under `len(number_str) >= 2`). -/
def trailing5 (s : List Char) : List Char :=
  if h : 2 ≤ s.length ∧ s.getLast? = some '5' then
    s.take (s.length - 2) ++ [s.get ⟨s.length - 2, by omega⟩, s.get ⟨s.length - 2, by omega⟩]
  else s

/-- Embeds the pairing of two adjacent characters (the body of the final loop
of `transform_numbers`). -/
def pairChars (a b : Char) : Char × Char :=
  if (a = '0' ∧ b ≠ '5') ∨ (b = '0' ∧ a ≠ '5') then
    if a = '0' then (b, b) else (a, a)
  else if (a = '5' ∧ b = '0') ∨ (a = '0' ∧ b = '5') then ('0', '0')
  else if a = '5' ∨ b = '5' then
    if a = '5' then (b, b) else (a, a)
  else (a, b)

/-- Embeds `for i in range(len(number_str) - 1): ... pairs.append(pair)`. -/
def mkPairs : List Char → List (Char × Char)
  | a :: b :: rest => pairChars a b :: mkPairs (b :: rest)
  | _ => []

/-- Embeds `FieldAnalyzer.transform_numbers`: triplet rewrite, interior-`5`
deletion, edge-`5` rules (both guarded by `len >= 2`, trailing applied to the
result of leading), then pairing. -/
def transform_numbers (number_str : List Char) : List (Char × Char) :=
  let s1 := handle_5_between_9_1 number_str
  let s2 := removeMiddle5 s1
  let s3 := if 2 ≤ s2.length then trailing5 (leading5 s2) else s2
  mkPairs s3

/-- Modelled from the spec's words (§4.1 step 1), for comparison with
`handle_5_between_9_1`: scan left to right; each non-overlapping occurrence of
the literal substring `951` / `159` is rewritten to `9191` / `1919`;
non-matching characters pass through unchanged. -/
def tripletRewrite : List Char → List Char
  | '9' :: '5' :: '1' :: rest => '9' :: '1' :: '9' :: '1' :: tripletRewrite rest
  | '1' :: '5' :: '9' :: rest => '1' :: '9' :: '1' :: '9' :: tripletRewrite rest
  | c :: rest => c :: tripletRewrite rest
  | [] => []

/-- Number of (non-overlapping, left-to-right) `951`/`159` matches found by the
triplet scan. -/
def tripletMatches : List Char → Nat
  | '9' :: '5' :: '1' :: rest => tripletMatches rest + 1
  | '1' :: '5' :: '9' :: rest => tripletMatches rest + 1
  | _ :: rest => tripletMatches rest
  | [] => 0

example : transform_numbers ['5', '1', '2'] = [('1', '1'), ('1', '1'), ('1', '2')] := by decide

example : transform_numbers ['1', '2', '5'] = [('1', '2'), ('2', '2')] := by decide

example : transform_numbers ['1', '2', '5', '3'] = [('1', '2'), ('2', '3')] := by decide

/-! ## Resolver (controller/analysis_controller.py, apply_advanced_rules) -/

/-- Point update of a count map: `m[f] := m[f] + d` (Python `adjusted_counts[f] += d`). -/
def bump (m : MagField → Int) (f : MagField) (d : Int) : MagField → Int :=
  fun g => if g = f then m g + d else m g

/-- Raw tally `Counter(input_list)` read as a total function (a missing key
reads as 0, as with `Counter.__getitem__`). -/
def rawCounts (labels : List MagField) : MagField → Int :=
  fun f => (labels.count f : Int)

/-- The Resolver's mutable state: the adjusted count map plus the
`used_indexes` set (spec §9: `{counts: CountMap, consumed: set<index>}`). -/
structure RuleState where
  adj : MagField → Int
  used : List Nat

/-- Rule 1: `cancel_count = min(adjusted_counts[天醫], adjusted_counts[絕命])`;
subtract it from both when positive. -/
def rule1 (st : RuleState) : RuleState :=
  let k := min (st.adj HeavenDoctor) (st.adj Doom)
  if 0 < k then
    { st with adj := bump (bump st.adj HeavenDoctor (-k)) Doom (-k) }
  else st

/-- Rule 2: the same pairwise offset for 延年 (Longevity) vs 六煞 (SixEvils). -/
def rule2 (st : RuleState) : RuleState :=
  let k := min (st.adj Longevity) (st.adj SixEvils)
  if 0 < k then
    { st with adj := bump (bump st.adj Longevity (-k)) SixEvils (-k) }
  else st

/-- The `group_pairs` list of rule 3. -/
def group_pairs : List (MagField × MagField) :=
  [(HeavenDoctor, HeavenDoctor), (HeavenDoctor, Longevity),
   (LifeForce, Resting), (Longevity, LifeForce)]

/-- Rule 3 scan (`while i < len(input_list) - 1`): an adjacent pair in
`group_pairs` with `adjusted_counts[禍害] > 0` decrements both matched fields
and 禍害 (Calamity), records both indices in `used_indexes`, and advances by 2;
otherwise the scan advances by 1.  The `fuel` argument only bounds the number
of loop iterations (each iteration advances `i` by at least 1, so
`labels.length` iterations always suffice). -/
def rule3Go (labels : List MagField) : Nat → Nat → RuleState → RuleState
  | 0, _, st => st
  | fuel + 1, i, st =>
    if h : i + 1 < labels.length then
      if (labels.get ⟨i, by omega⟩, labels.get ⟨i + 1, h⟩) ∈ group_pairs ∧
          0 < st.adj Calamity then
        rule3Go labels fuel (i + 2)
          { adj := bump (bump (bump st.adj (labels.get ⟨i, by omega⟩) (-1))
              (labels.get ⟨i + 1, h⟩) (-1)) Calamity (-1),
            used := i :: (i + 1) :: st.used }
      else rule3Go labels fuel (i + 1) st
    else st

/-- Rule 4 scan (`while i < len(input_list) - 2`): the exact contiguous triplet
[生氣, 天醫, 延年] with `adjusted_counts[五鬼] > 0` decrements all three plus
五鬼 (FiveGhosts) and advances by 3; otherwise by 1.  The scan does not read
`used_indexes`.  `fuel` bounds the iteration count as in `rule3Go`. -/
def rule4Go (labels : List MagField) : Nat → Nat → RuleState → RuleState
  | 0, _, st => st
  | fuel + 1, i, st =>
    if h : i + 2 < labels.length then
      if labels.get ⟨i, by omega⟩ = LifeForce ∧ labels.get ⟨i + 1, by omega⟩ = HeavenDoctor ∧
          labels.get ⟨i + 2, h⟩ = Longevity ∧ 0 < st.adj FiveGhosts then
        rule4Go labels fuel (i + 3)
          { st with
            adj := bump (bump (bump (bump st.adj LifeForce (-1)) HeavenDoctor (-1))
              Longevity (-1)) FiveGhosts (-1) }
      else rule4Go labels fuel (i + 1) st
    else st

/-- The inner `while` of rule 5: length of the run of consecutive 伏位
(Resting) labels from position `j` on, stopping at a label that is not 伏位 or
an index already in `used_indexes`.  `fuel` bounds the iteration count. -/
def runLen (labels : List MagField) (used : List Nat) : Nat → Nat → Nat
  | 0, _ => 0
  | fuel + 1, j =>
    if h : j < labels.length then
      if labels.get ⟨j, h⟩ = Resting ∧ j ∉ used then runLen labels used fuel (j + 1) + 1
      else 0
    else 0

/-- Rule 5 scan (`while i < len(input_list) - 1`): a position not in
`used_indexes` and not labelled 伏位, followed by a run of `c > 0` consecutive
unconsumed 伏位 labels with `adjusted_counts[伏位] >= c`, gains `c` on its own
field, 伏位 (Resting) loses `c`, the whole range `[i, i+c]` is marked used,
and the scan jumps past the run.  `fuel` bounds the iteration count. -/
def rule5Go (labels : List MagField) : Nat → Nat → RuleState → RuleState
  | 0, _, st => st
  | fuel + 1, i, st =>
    if h : i + 1 < labels.length then
      if i ∈ st.used ∨ labels.get ⟨i, by omega⟩ = Resting then rule5Go labels fuel (i + 1) st
      else
        let c := runLen labels st.used labels.length (i + 1)
        if 0 < c ∧ (c : Int) ≤ st.adj Resting then
          rule5Go labels fuel (i + 1 + c)
            { adj := bump (bump st.adj (labels.get ⟨i, by omega⟩) c) Resting (-(c : Int)),
              used := List.range' i (c + 1) ++ st.used }
        else rule5Go labels fuel (i + 1) st
    else st

/-- The adjusted-count state after rules 1 and 2. -/
def afterRule2 (labels : List MagField) : RuleState :=
  rule2 (rule1 { adj := rawCounts labels, used := [] })

/-- The adjusted-count state after rule 3. -/
def afterRule3 (labels : List MagField) : RuleState :=
  rule3Go labels labels.length 0 (afterRule2 labels)

/-- The adjusted-count state after rule 4. -/
def afterRule4 (labels : List MagField) : RuleState :=
  rule4Go labels labels.length 0 (afterRule3 labels)

/-- Embeds `apply_advanced_rules`: tally, rules 1-5 in order. -/
def apply_advanced_rules (labels : List MagField) : RuleState :=
  rule5Go labels labels.length 0 (afterRule4 labels)

/-- The nine fields, for enumerating the keys of the final dictionary. -/
def allFields : List MagField :=
  [Resting, LifeForce, HeavenDoctor, Longevity, Doom, SixEvils, Calamity, FiveGhosts, Unknown]

/-- Embeds the final `{k: v for k, v in adjusted_counts.items() if v > 0}`:
the association list of fields whose adjusted count is positive (every key of
the Python dict with a nonzero value is one of the nine fields). -/
def finalCounts (labels : List MagField) : List (MagField × Int) :=
  (allFields.filter (fun f => 0 < (apply_advanced_rules labels).adj f)).map
    (fun f => (f, (apply_advanced_rules labels).adj f))

example :
    (finalCounts [HeavenDoctor, Doom, HeavenDoctor]).map (fun p => p.1) = [HeavenDoctor] := by
  decide

example : (apply_advanced_rules [HeavenDoctor, Doom, HeavenDoctor]).adj HeavenDoctor = 1 := by
  decide

/-! ## Synthesizer budget (core/recommendation_engine.py, generate_lucky_numbers)

The `cancel_fields` dictionary has five keys: 天醫, 生氣, 伏位, 延年 and the
compound key `"天醫+生氣+延年"`.  They are modelled by `CancelKey` (pinyin
names: tianYi = 天醫/HeavenDoctor, shengQi = 生氣/LifeForce,
fuWei = 伏位/Resting, yanNian = 延年/Longevity, compound = the `+`-joined key).
The random generator is an explicit stream `rand : Nat → Nat`; each
`random.choice` / `random.sample(…, k=1)` consumes one stream position. -/

inductive CancelKey where
  | tianYi
  | shengQi
  | fuWei
  | yanNian
  | compound
deriving DecidableEq, Repr

/-- `cancel_fields[k] += 1`. -/
def bumpK (cf : CancelKey → Nat) (k : CancelKey) : CancelKey → Nat :=
  fun g => if g = k then cf g + 1 else cf g

/-- `remaining_fields[k] -= 1` (only ever executed when the count is positive). -/
def decK (cf : CancelKey → Nat) (k : CancelKey) : CancelKey → Nat :=
  fun g => if g = k then cf g - 1 else cf g

/-- Embeds a `while neg_fields[…] > 0: cancel_fields[k] += 1; neg_fields[…] -= 1`
loop: `n` iterations, each adding 1 to key `k`. -/
def drainLoop (k : CancelKey) : Nat → (CancelKey → Nat) → (CancelKey → Nat)
  | 0, cf => cf
  | n + 1, cf => drainLoop k n (bumpK cf k)

/-- Embeds the 禍害 loop: per unit, `cancel_fields[生氣] += 1` and then the
randomly sampled key `r ∈ {生氣, 伏位, 延年}` (one list element per iteration)
also gains 1. -/
def drainCalamity : List CancelKey → (CancelKey → Nat) → (CancelKey → Nat)
  | [], cf => cf
  | r :: rest, cf => drainCalamity rest (bumpK (bumpK cf .shengQi) r)

/-- Embeds `generate_lucky_numbers` (the compensation-budget function of
core/recommendation_engine.py): 絕命 (Doom) feeds 天醫, 六煞 (SixEvils) feeds
延年, 五鬼 (FiveGhosts) feeds the compound key, and each 禍害 (Calamity) unit
feeds 生氣 plus one sampled key.  `picks` is the sequence of sampled keys, one
per 禍害 unit (`random.sample(["生氣", "伏位", "延年"], k=1)[0]`). -/
def generate_lucky_numbers (fields : MagField → Int) (picks : List CancelKey) :
    CancelKey → Nat :=
  let cf0 : CancelKey → Nat := fun _ => 0
  let cf1 := drainLoop .tianYi (fields Doom).toNat cf0
  let cf2 := drainLoop .yanNian (fields SixEvils).toNat cf1
  let cf3 := drainLoop .compound (fields FiveGhosts).toNat cf2
  drainCalamity picks cf3

/-! ## Synthesizer chain (core/recommendation_engine.py) -/

/-- The `magneticic_pairs` catalogue (sic), keyed by the four simple keys; the
compound key is not a key of the Python dict and maps to `[]`. -/
def magneticic_pairs : CancelKey → List (Char × Char)
  | .fuWei => [('0','0'), ('1','1'), ('2','2'), ('3','3'), ('4','4'),
               ('6','6'), ('7','7'), ('8','8'), ('9','9')]
  | .shengQi => [('1','4'), ('4','1'), ('6','7'), ('7','6'),
                 ('3','9'), ('9','3'), ('2','8'), ('8','2')]
  | .tianYi => [('1','3'), ('3','1'), ('6','8'), ('8','6'),
                ('4','9'), ('9','4'), ('2','7'), ('7','2')]
  | .yanNian => [('1','9'), ('9','1'), ('7','8'), ('8','7'),
                 ('3','4'), ('4','3'), ('2','6'), ('6','2')]
  | .compound => []

/-- `field in magneticic_pairs` (dict-key membership). -/
def CancelKey.isSimple : CancelKey → Bool
  | .compound => false
  | _ => true

/-- `"天醫+生氣+延年".split('+')`, each component being a key of
`magneticic_pairs` (so `valid_components` equals this list). -/
def components : List CancelKey := [.tianYi, .shengQi, .yanNian]

/-- Insertion order of the `cancel_fields` dictionary keys. -/
def keysOrder : List CancelKey := [.tianYi, .shengQi, .fuWei, .yanNian, .compound]

/-- `list(magneticic_pairs.keys())`: insertion order of the catalogue dict. -/
def magKeysOrder : List CancelKey := [.fuWei, .shengQi, .tianYi, .yanNian]

/-- All catalogue pairs (the union of the four catalogues). -/
def allPairs : List (Char × Char) := magKeysOrder.flatMap magneticic_pairs

/-- `random.choice(l)` drawing stream position `n`: an arbitrary element of
`l`, modelled as indexing by `rand n` modulo the length (the default is never
reached on a nonempty list). -/
def choice (rand : Nat → Nat) (n : Nat) (l : List α) (dflt : α) : α :=
  l.getD (rand n % l.length) dflt

/-- The growing chain: `magnetic_sequence` stored most-recent-first, the
`remaining_fields` budget, and the next random-stream position. -/
structure ChainState where
  revSeq : List (Char × Char)
  rem : CancelKey → Nat
  idx : Nat

/-- Embeds the start-field selection loop: walk the (shuffled) candidate start
keys; the first one with remaining budget provides the start pair — a compound
key first samples one of its components.  Returns `none` when the list is
exhausted (`magnetic_sequence` still empty). -/
def pickStart (rand : Nat → Nat) :
    List CancelKey → (CancelKey → Nat) → Nat → Option ((Char × Char) × (CancelKey → Nat) × Nat)
  | [], _, _ => none
  | k :: rest, rem, n =>
    if 0 < rem k then
      if k = .compound then
        -- valid_components = [c for c in components if c in magneticic_pairs]: all three
        let c := choice rand n components .tianYi
        let p := choice rand (n + 1) (magneticic_pairs c) ('0', '0')
        some (p, decK rem k, n + 2)
      else
        -- `field in magneticic_pairs` holds for every simple key
        let p := choice rand n (magneticic_pairs k) ('0', '0')
        some (p, decK rem k, n + 1)
    else pickStart rand rest rem n

/-- Embeds the start of `generate_lucky_number_chain_by_cancel_fields`:
`possible_start_fields` (budgeted keys in dict order), shuffled, walked by
`pickStart`; if no start pair was found, a uniformly random catalogue key and
pair are used without touching the budget.  `shuffle` abstracts
`random.shuffle`, consuming one stream position. -/
def startChain (rand : Nat → Nat) (shuffle : Nat → List CancelKey → List CancelKey)
    (cf : CancelKey → Nat) (n : Nat) : ChainState :=
  let psf := keysOrder.filter (fun k => 0 < cf k)
  match pickStart rand (shuffle n psf) cf (n + 1) with
  | some (p, rem, n2) => ⟨[p], rem, n2⟩
  | none =>
    let k := choice rand (n + 1) magKeysOrder .fuWei
    let p := choice rand (n + 2) (magneticic_pairs k) ('0', '0')
    ⟨[p], cf, n + 3⟩

/-- Embeds the in-budget candidate collection of the growth loop: walk the
budget keys in dict order, skip exhausted ones (`if count <= 0: continue`), and
collect catalogue pairs starting with the last digit — a compound key collects
from each of its components, tagged with the compound key itself. -/
def budgetCandidates (rem : CancelKey → Nat) (d : Char) :
    List (CancelKey × (Char × Char)) :=
  keysOrder.flatMap (fun k =>
    if rem k = 0 then []
    else if k.isSimple then
      ((magneticic_pairs k).filter (fun p => p.1 = d)).map (fun p => (k, p))
    else
      components.flatMap (fun c =>
        ((magneticic_pairs c).filter (fun p => p.1 = d)).map (fun p => (k, p))))

/-- Embeds the unrestricted fallback collection: all catalogue pairs starting
with the last digit, in catalogue-dict order. -/
def fallbackCandidates (d : Char) : List (Char × Char) :=
  magKeysOrder.flatMap (fun k => (magneticic_pairs k).filter (fun p => p.1 = d))

/-- Embeds the growth loop (`while len(magnetic_sequence) < num_fields`): each
iteration appends one pair — a budgeted candidate (decrementing its key) when
any exists, otherwise an unrestricted fallback pair — or stops early (`break`)
when even the fallback finds nothing.  `fuel` is the exact number of missing
pairs, each non-break iteration appending exactly one. -/
def growGo (rand : Nat → Nat) : Nat → ChainState → ChainState
  | 0, st => st
  | fuel + 1, st =>
    let d := (st.revSeq.headD ('0', '0')).2
    let cands := budgetCandidates st.rem d
    if cands.isEmpty then
      let fb := fallbackCandidates d
      if fb.isEmpty then st
      else growGo rand fuel ⟨choice rand st.idx fb ('0', '0') :: st.revSeq, st.rem, st.idx + 1⟩
    else
      let kp := choice rand st.idx cands (.fuWei, ('0', '0'))
      growGo rand fuel ⟨kp.2 :: st.revSeq, decK st.rem kp.1, st.idx + 1⟩

/-- Embeds the final concatenation: the first pair contributes both characters,
every later pair only its second one (the sequence is never empty when this
runs). -/
def renderChain : List (Char × Char) → List Char
  | [] => []
  | p :: rest => p.1 :: p.2 :: rest.map (fun q => q.2)

/-- Embeds `generate_lucky_number_chain_by_cancel_fields`: start pair, then
`num_fields - 1 = length - 2` growth iterations (`num_fields = length - 1`
pairs in total), then rendering.  Returns the numeral together with the next
random-stream position. -/
def generate_lucky_number_chain_by_cancel_fields (rand : Nat → Nat)
    (shuffle : Nat → List CancelKey → List CancelKey) (cf : CancelKey → Nat)
    (length : Int) (n : Nat) : List Char × Nat :=
  let st0 := startChain rand shuffle cf n
  let st := growGo rand (length - 2).toNat st0
  (renderChain st.revSeq.reverse, st.idx)

/-- The sampled keys of the 禍害 budget loop: `m` consecutive draws from
`["生氣", "伏位", "延年"]`. -/
def calamityPicks (rand : Nat → Nat) (n m : Nat) : List CancelKey :=
  (List.range m).map (fun i => choice rand (n + i) [.shengQi, .fuWei, .yanNian] .shengQi)

/-- The `for _ in range(count)` loop of `generate_multiple_lucky_numbers`:
`count` chains drawn sequentially from the shared budget and random stream. -/
def chainsLoop (rand : Nat → Nat) (shuffle : Nat → List CancelKey → List CancelKey)
    (cf : CancelKey → Nat) (length : Int) : Nat → Nat → List (List Char) × Nat
  | 0, n => ([], n)
  | count + 1, n =>
    let r := generate_lucky_number_chain_by_cancel_fields rand shuffle cf length n
    let rest := chainsLoop rand shuffle cf length count r.2
    (r.1 :: rest.1, rest.2)

/-- Embeds `generate_multiple_lucky_numbers`: the compensation budget is
computed once (consuming one random draw per 禍害 unit) and shared by all
`count` chain draws. -/
def generate_multiple_lucky_numbers (rand : Nat → Nat)
    (shuffle : Nat → List CancelKey → List CancelKey) (magnetic_input : MagField → Int)
    (length : Int) (count : Nat) (n : Nat) : List (List Char) × Nat :=
  let m := (magnetic_input Calamity).toNat
  let cancel := generate_lucky_numbers magnetic_input (calamityPicks rand n m)
  chainsLoop rand shuffle cancel length count (n + m)

/-! ## Controller affix splicing (controller/analysis_controller.py) -/

/-- The `FixDigitsPosition` enumeration of data/input_data.py. -/
inductive FixDigitsPosition where
  | NONE
  | BEGIN
  | CENTER
  | END
deriving DecidableEq, Repr

/-- Embeds `AnalyzeController.generate_full_lucky_numbers`: when an affix
position is requested the working length drops by the affix length, the
candidates are generated, and the affix is spliced in (BEGIN prepends, CENTER
splits at `(digits_length + 1) // 2`, END appends).  Claims exercise only the
NONE/END branches; CENTER uses Lean `Int` division, which agrees with Python
floor division on the nonnegative working lengths. -/
def generate_full_lucky_numbers (rand : Nat → Nat)
    (shuffle : Nat → List CancelKey → List CancelKey) (adjusted_counts : MagField → Int)
    (digits_length : Int) (pos : FixDigitsPosition) (fixed_digits_value : List Char)
    (count : Nat) (n : Nat) : List (List Char) :=
  let dl : Int :=
    if pos ≠ FixDigitsPosition.NONE then digits_length - fixed_digits_value.length
    else digits_length
  let recs := (generate_multiple_lucky_numbers rand shuffle adjusted_counts dl count n).1
  if pos = FixDigitsPosition.NONE then recs
  else
    recs.map (fun r =>
      match pos with
      | FixDigitsPosition.BEGIN => fixed_digits_value ++ r
      | FixDigitsPosition.CENTER =>
        r.take ((dl + 1) / 2).toNat ++ fixed_digits_value ++ r.drop ((dl + 1) / 2).toNat
      | FixDigitsPosition.END => r ++ fixed_digits_value
      | FixDigitsPosition.NONE => r)

/-! ## Validators (utils/validators.py) -/

/-- Embeds `is_valid_digit_length` on an integer input: `s > 1`. -/
def is_valid_digit_length (s : Int) : Bool := 1 < s

/-- Embeds `is_valid_fixed_num`: alphanumeric and 1-4 characters long. -/
def is_valid_fixed_num (s : List Char) : Bool :=
  s.all Char.isAlphanum && 1 ≤ s.length && s.length ≤ 4

/-- Embeds the digits-length / fixed-digits part of `validate_all`
(utils/validators.py), which input_controller runs before `analyze` is ever
called.  `typeErrors` stands for the input-type checks of the first branch
(name/ID/phone/birth/custom formats), which no claim touches.  An invalid
digit length makes `digits_length` infinite (`float("inf")`), so the
`len(fixed) >= digits_length` comparison is then skipped — modelled by
`Option.none`. -/
def validate_all (typeErrors : List String) (digits_length : Int)
    (fixed_digits_position : FixDigitsPosition) (fixed_digits_value : List Char) :
    List String :=
  let e1 :=
    if ¬ is_valid_digit_length digits_length then typeErrors ++ ["自訂位數必須是大於 1 的正整數"]
    else typeErrors
  let dlEff : Option Int :=
    if ¬ is_valid_digit_length digits_length then none else some digits_length
  if fixed_digits_position ≠ FixDigitsPosition.NONE then
    if ¬ is_valid_fixed_num fixed_digits_value then e1 ++ ["固定英數字必須為 1~4 位"]
    else if (match dlEff with
             | none => false
             | some dl => dl ≤ (fixed_digits_value.length : Int)) then
      e1 ++ ["固定英數字的長度應比總位數小 2 位以上"]
    else e1
  else e1

/-! ## Supporting lemmas -/

theorem tR_cons3 (a b c : Char) (rest : List Char)
    (h : ¬(a = '9' ∧ b = '5' ∧ c = '1')) (h2 : ¬(a = '1' ∧ b = '5' ∧ c = '9')) :
    tripletRewrite (a :: b :: c :: rest) = a :: tripletRewrite (b :: c :: rest) := by
  rw [tripletRewrite.eq_def]
  split
  · rename_i heq
    rw [List.cons.injEq, List.cons.injEq, List.cons.injEq] at heq
    exact absurd ⟨heq.1, heq.2.1, heq.2.2.1⟩ h
  · rename_i heq
    rw [List.cons.injEq, List.cons.injEq, List.cons.injEq] at heq
    exact absurd ⟨heq.1, heq.2.1, heq.2.2.1⟩ h2
  · rename_i heq
    rw [List.cons.injEq] at heq
    rw [heq.1, heq.2]
  · rename_i heq
    exact absurd heq (List.cons_ne_nil _ _)

theorem tR_nil : tripletRewrite [] = [] := by rw [tripletRewrite]

theorem tR_one (a : Char) : tripletRewrite [a] = [a] := by
  rw [tripletRewrite.eq_def]
  split
  · rename_i heq; simp at heq
  · rename_i heq; simp at heq
  · rename_i heq
    rw [List.cons.injEq] at heq
    rw [heq.1, ← heq.2, tR_nil]
  · rename_i heq; exact absurd heq (List.cons_ne_nil _ _)

theorem tR_two (a b : Char) : tripletRewrite [a, b] = [a, b] := by
  rw [tripletRewrite.eq_def]
  split
  · rename_i heq; simp at heq
  · rename_i heq; simp at heq
  · rename_i heq
    rw [List.cons.injEq] at heq
    rw [heq.1, ← heq.2, tR_one]
  · rename_i heq; exact absurd heq (List.cons_ne_nil _ _)

theorem tM_cons3 (a b c : Char) (rest : List Char)
    (h : ¬(a = '9' ∧ b = '5' ∧ c = '1')) (h2 : ¬(a = '1' ∧ b = '5' ∧ c = '9')) :
    tripletMatches (a :: b :: c :: rest) = tripletMatches (b :: c :: rest) := by
  rw [tripletMatches.eq_def]
  split
  · rename_i heq
    rw [List.cons.injEq, List.cons.injEq, List.cons.injEq] at heq
    exact absurd ⟨heq.1, heq.2.1, heq.2.2.1⟩ h
  · rename_i heq
    rw [List.cons.injEq, List.cons.injEq, List.cons.injEq] at heq
    exact absurd ⟨heq.1, heq.2.1, heq.2.2.1⟩ h2
  · rename_i heq
    rw [List.cons.injEq] at heq
    rw [heq.2]
  · rename_i heq; exact absurd heq (List.cons_ne_nil _ _)

theorem tM_one (a : Char) : tripletMatches [a] = 0 := by
  rw [tripletMatches.eq_def]
  split
  · rename_i heq; simp at heq
  · rename_i heq; simp at heq
  · rename_i heq
    rw [List.cons.injEq] at heq
    rw [← heq.2]
    rfl
  · rename_i heq; exact absurd heq (List.cons_ne_nil _ _)

theorem tM_two (a b : Char) : tripletMatches [a, b] = 0 := by
  rw [tripletMatches.eq_def]
  split
  · rename_i heq; simp at heq
  · rename_i heq; simp at heq
  · rename_i heq
    rw [List.cons.injEq] at heq
    rw [← heq.2, tM_one]
  · rename_i heq; exact absurd heq (List.cons_ne_nil _ _)

theorem handle_eq_tripletRewrite : ∀ s, handle_5_between_9_1 s = tripletRewrite s := by
  intro s
  induction s using handle_5_between_9_1.induct with
  | case1 a b c rest h ih =>
    simp_all [handle_5_between_9_1, tripletRewrite]
  | case2 a b c rest h h2 ih =>
    simp_all [handle_5_between_9_1, tripletRewrite]
  | case3 a b c rest h h2 ih =>
    rw [handle_5_between_9_1, if_neg h, if_neg h2, ih, tR_cons3 a b c rest h h2]
  | case4 s h =>
    rcases s with - | ⟨a, - | ⟨b, - | ⟨c, rest⟩⟩⟩
    · rw [tR_nil]
      rfl
    · rw [tR_one]
      rfl
    · rw [tR_two]
      rfl
    · exact (h a b c rest rfl).elim

theorem handle_len (s : List Char) :
    (handle_5_between_9_1 s).length = s.length + tripletMatches s := by
  induction s using handle_5_between_9_1.induct with
  | case1 a b c rest h ih =>
    simp_all [handle_5_between_9_1, tripletMatches]
    omega
  | case2 a b c rest h h2 ih =>
    simp_all [handle_5_between_9_1, tripletMatches]
    omega
  | case3 a b c rest h h2 ih =>
    rw [handle_5_between_9_1, if_neg h, if_neg h2, tM_cons3 a b c rest h h2]
    simp only [List.length_cons, ih]
    omega
  | case4 s h =>
    rcases s with - | ⟨a, - | ⟨b, - | ⟨c, rest⟩⟩⟩
    · rfl
    · rw [tM_one]
      rfl
    · rw [tM_two]
      rfl
    · exact (h a b c rest rfl).elim

theorem handle_id_of_no5 (s : List Char) (h5 : '5' ∉ s) : handle_5_between_9_1 s = s := by
  induction s using handle_5_between_9_1.induct with
  | case1 a b c rest h ih => exact absurd (h.2.1 ▸ List.mem_cons_of_mem a (List.mem_cons_self b _)) h5
  | case2 a b c rest h h2 ih => exact absurd (h2.2.1 ▸ List.mem_cons_of_mem a (List.mem_cons_self b _)) h5
  | case3 a b c rest h h2 ih =>
    rw [handle_5_between_9_1, if_neg h, if_neg h2,
      ih (fun hm => h5 (List.mem_cons_of_mem a hm))]
  | case4 s h =>
    rcases s with - | ⟨a, - | ⟨b, - | ⟨c, rest⟩⟩⟩
    · rfl
    · rfl
    · rfl
    · exact (h a b c rest rfl).elim

theorem removeMiddle5_id (s : List Char) (h5 : '5' ∉ s) : removeMiddle5 s = s := by
  rw [removeMiddle5]
  split
  · rfl
  · rename_i hlen
    rw [List.filter_eq_self.mpr]
    · have h2 : (1 : Nat) + (s.length - 2) = s.length - 1 := by omega
      rw [← h2, List.append_assoc, List.drop_take_append_drop s 1 (s.length - 2),
        List.take_append_drop]
    · intro c hc
      have : c ∈ s := List.mem_of_mem_drop (List.mem_of_mem_take hc)
      simp only [decide_eq_true_eq, ne_eq]
      exact fun hh => h5 (hh ▸ this)

theorem leading5_id (s : List Char) (h5 : '5' ∉ s) : leading5 s = s := by
  match s with
  | [] => rfl
  | [a] => rfl
  | a :: b :: rest =>
    rw [leading5, if_neg]
    exact fun hh => h5 (hh ▸ List.mem_cons_self a _)

theorem trailing5_id (s : List Char) (h5 : '5' ∉ s) : trailing5 s = s := by
  rw [trailing5]
  split
  · rename_i hcond
    obtain ⟨hmem, heq⟩ := List.mem_getLast?_eq_getLast (Option.mem_def.mpr hcond.2)
    exact absurd (heq ▸ List.getLast_mem hmem) h5
  · rfl

theorem pairChars_id (a b : Char) (ha0 : a ≠ '0') (ha5 : a ≠ '5') (hb0 : b ≠ '0')
    (hb5 : b ≠ '5') : pairChars a b = (a, b) := by
  rw [pairChars, if_neg, if_neg, if_neg]
  · rintro (h | h) <;> [exact ha5 h; exact hb5 h]
  · rintro (⟨h, -⟩ | ⟨h, -⟩) <;> [exact ha5 h; exact ha0 h]
  · rintro (⟨h, -⟩ | ⟨h, -⟩) <;> [exact ha0 h; exact hb0 h]

theorem mkPairs_zip (s : List Char) (h : ∀ c ∈ s, c ≠ '0' ∧ c ≠ '5') :
    mkPairs s = s.zip s.tail := by
  match s with
  | [] => rfl
  | [a] => rfl
  | a :: b :: rest =>
    have ha := h a (List.mem_cons_self a _)
    have hb := h b (List.mem_cons_of_mem a (List.mem_cons_self b _))
    rw [mkPairs, pairChars_id a b ha.1 ha.2 hb.1 hb.2,
      mkPairs_zip (b :: rest) (fun c hc => h c (List.mem_cons_of_mem a hc))]
    rfl

theorem bump_le (m : MagField → Int) (f : MagField) (d : Int) (hd : d ≤ 0) (g : MagField) :
    bump m f d g ≤ m g := by
  rw [bump]
  split <;> omega

theorem rule1_adj_le (st : RuleState) (g : MagField) : (rule1 st).adj g ≤ st.adj g := by
  rw [rule1]
  split
  · rename_i hk
    exact le_trans (bump_le _ _ _ (by omega) g) (bump_le _ _ _ (by omega) g)
  · exact le_refl _

theorem rule2_adj_le (st : RuleState) (g : MagField) : (rule2 st).adj g ≤ st.adj g := by
  rw [rule2]
  split
  · rename_i hk
    exact le_trans (bump_le _ _ _ (by omega) g) (bump_le _ _ _ (by omega) g)
  · exact le_refl _

theorem rule3Go_adj_le (labels : List MagField) :
    ∀ fuel i st g, (rule3Go labels fuel i st).adj g ≤ st.adj g := by
  intro fuel
  induction fuel with
  | zero => intro i st g; exact le_refl _
  | succ fuel ih =>
    intro i st g
    rw [rule3Go]
    split
    · split
      · refine le_trans (ih _ _ g) ?_
        exact le_trans (bump_le _ _ _ (by omega) g) (le_trans (bump_le _ _ _ (by omega) g)
          (bump_le _ _ _ (by omega) g))
      · exact ih _ _ g
    · exact le_refl _

theorem rule4Go_adj_le (labels : List MagField) :
    ∀ fuel i st g, (rule4Go labels fuel i st).adj g ≤ st.adj g := by
  intro fuel
  induction fuel with
  | zero => intro i st g; exact le_refl _
  | succ fuel ih =>
    intro i st g
    rw [rule4Go]
    split
    · split
      · refine le_trans (ih _ _ g) ?_
        refine le_trans (bump_le _ _ _ (by omega) g) ?_
        exact le_trans (bump_le _ _ _ (by omega) g) (le_trans (bump_le _ _ _ (by omega) g)
          (bump_le _ _ _ (by omega) g))
      · exact ih _ _ g
    · exact le_refl _

theorem rawCounts_pos (labels : List MagField) (f : MagField) (h : 0 < rawCounts labels f) :
    f ∈ labels := by
  rw [rawCounts] at h
  exact List.count_pos_iff.mp (by exact_mod_cast h)

theorem afterRule4_pos (labels : List MagField) (f : MagField)
    (h : 0 < (afterRule4 labels).adj f) : f ∈ labels := by
  have h3 : 0 < (afterRule3 labels).adj f :=
    lt_of_lt_of_le h (rule4Go_adj_le labels labels.length 0 _ f)
  have h2 : 0 < (afterRule2 labels).adj f :=
    lt_of_lt_of_le h3 (rule3Go_adj_le labels labels.length 0 _ f)
  have h1 : 0 < (rule1 { adj := rawCounts labels, used := [] }).adj f :=
    lt_of_lt_of_le h2 (rule2_adj_le _ f)
  have h0 : 0 < rawCounts labels f := lt_of_lt_of_le h1 (rule1_adj_le _ f)
  exact rawCounts_pos labels f h0

theorem rule5Go_pos (labels : List MagField) :
    ∀ fuel i st, (∀ f, 0 < st.adj f → f ∈ labels) →
      ∀ f, 0 < (rule5Go labels fuel i st).adj f → f ∈ labels := by
  intro fuel
  induction fuel with
  | zero => intro i st hP f hf; exact hP f hf
  | succ fuel ih =>
    intro i st hP f hf
    rw [rule5Go] at hf
    split at hf
    · rename_i hrange
      split at hf
      · exact ih _ _ hP f hf
      · rename_i hskip
        dsimp only at hf
        split at hf
        · rename_i hc
          refine ih _ _ ?_ f hf
          intro g hg
          simp only [bump] at hg
          by_cases hgr : g = Resting
          · subst hgr
            have hne : Resting ≠ labels.get ⟨i, by omega⟩ := by
              intro hh
              exact hskip (Or.inr hh.symm)
            rw [if_pos rfl, if_neg hne] at hg
            exact hP Resting (by omega)
          · rw [if_neg hgr] at hg
            by_cases hgi : g = labels.get ⟨i, by omega⟩
            · exact hgi ▸ List.get_mem labels _ _
            · rw [if_neg hgi] at hg
              exact hP g hg
        · exact ih _ _ hP f hf
    · exact hP f hf

theorem rule1_nonneg (st : RuleState) (h : ∀ f, 0 ≤ st.adj f) (f : MagField) :
    0 ≤ (rule1 st).adj f := by
  have hHD := h HeavenDoctor
  have hD := h Doom
  have hf := h f
  rw [rule1]
  split
  · cases f <;> simp [bump] <;> omega
  · exact hf

theorem rule2_nonneg (st : RuleState) (h : ∀ f, 0 ≤ st.adj f) (f : MagField) :
    0 ≤ (rule2 st).adj f := by
  have hL := h Longevity
  have hS := h SixEvils
  have hf := h f
  rw [rule2]
  split
  · cases f <;> simp [bump] <;> omega
  · exact hf

theorem afterRule2_nonneg (labels : List MagField) (f : MagField) :
    0 ≤ (afterRule2 labels).adj f := by
  refine rule2_nonneg _ (fun g => rule1_nonneg _ (fun g' => ?_) g) f
  simp only [rawCounts]
  positivity

theorem runLen_used (labels : List MagField) (used : List Nat) (fuel j : Nat)
    (hj : j ∈ used) : runLen labels used fuel j = 0 := by
  cases fuel with
  | zero => rfl
  | succ fuel =>
    rw [runLen]
    split
    · rw [if_neg]
      rintro ⟨-, hnot⟩
      exact hnot hj
    · rfl

theorem rule5Go_skips_used (labels : List MagField) (fuel i : Nat) (st : RuleState)
    (hi : i ∈ st.used) (h : i + 1 < labels.length) :
    rule5Go labels (fuel + 1) i st = rule5Go labels fuel (i + 1) st := by
  rw [rule5Go, dif_pos h, if_pos (Or.inl hi)]


/-! ## Claims about the Transformer -/

/-- C2: for every ASCII-digit string of length at least 2 containing no `5`
and no `0` (hence also no `951`/`159` substring, both of which contain `5`),
`transform_numbers` returns exactly `len(s) - 1` pairs, the pair at index `i`
being the literal characters `(s[i], s[i+1])` — that is, the zip of `s` with
its tail. -/
theorem c2_literal_pairs (s : List Char) (hlen : 2 ≤ s.length)
    (hdig : ∀ c ∈ s, c.isDigit) (h5 : '5' ∉ s) (h0 : '0' ∉ s) :
    (transform_numbers s).length = s.length - 1 ∧ transform_numbers s = s.zip s.tail := by
  have hz : transform_numbers s = s.zip s.tail := by
    rw [transform_numbers]
    simp only [handle_id_of_no5 s h5, removeMiddle5_id s h5, if_pos hlen,
      leading5_id s h5, trailing5_id s h5]
    exact mkPairs_zip s (fun c hc => ⟨fun h => h0 (h ▸ hc), fun h => h5 (h ▸ hc)⟩)
  refine ⟨?_, hz⟩
  rw [hz, List.length_zip, List.length_tail]
  omega

/-- C2 witness: the literal-pair property evaluated on the concrete digit
string `123`. -/
theorem c2_witness :
    (transform_numbers ['1', '2', '3']).length = ['1', '2', '3'].length - 1 ∧
      transform_numbers ['1', '2', '3'] = ['1', '2', '3'].zip ['1', '2', '3'].tail :=
  c2_literal_pairs ['1', '2', '3'] (by decide) (by decide) (by decide) (by decide)

/-- C3: the edge-`5` rules are asymmetric exactly as specified:
`transform("512") = ["11", "11", "12"]` (a leading `5` makes the following
digit appear tripled at the front) while `transform("125") = ["12", "22"]`
(a trailing `5` replaces the last two characters by the doubled second-to-last
character). -/
theorem c3_edge5_asymmetry :
    transform_numbers ['5', '1', '2'] = [('1', '1'), ('1', '1'), ('1', '2')] ∧
      transform_numbers ['1', '2', '5'] = [('1', '2'), ('2', '2')] := by
  decide

/-- C4: the transformer's first step rewrites, scanning left to right, every
non-overlapping occurrence of the literal substring `951` to `9191` and `159`
to `1919`, passing non-matching characters through unchanged
(`handle_5_between_9_1` coincides with the spec-modelled `tripletRewrite`),
and each match lengthens the string by exactly 1. -/
theorem c4_triplet_rewrite :
    (∀ s, handle_5_between_9_1 s = tripletRewrite s) ∧
      (∀ s, (handle_5_between_9_1 s).length = s.length + tripletMatches s) :=
  ⟨handle_eq_tripletRewrite, handle_len⟩

/-! ## Claims about the Resolver -/

/-- C1 counterexample: the claim "after each of the five cancellation rules
runs, every field's adjusted count is ≥ 0" is false.  On the label sequence
[天醫, 天醫, 絕命, 絕命, 禍害], rules 1-2 drain HeavenDoctor (天醫) to 0, and
rule 3 then matches the adjacent (天醫, 天醫) pair checking only that the
Calamity (禍害) count is positive — not the matched fields' counts — leaving
HeavenDoctor at -2 after rule 3. -/
theorem c1_counterexample :
    (afterRule3 [HeavenDoctor, HeavenDoctor, Doom, Doom, Calamity]).adj HeavenDoctor = -2 ∧
      ¬ 0 ≤ (afterRule3 [HeavenDoctor, HeavenDoctor, Doom, Doom, Calamity]).adj HeavenDoctor := by
  decide

/-- C1 amended: rules 1 and 2 subtract only a pre-checked minimum, so after
them every adjusted count is still ≥ 0; rules 3 and 4 pre-check only the
Calamity/FiveGhosts counts and can drive a matched field's count negative at
an intermediate point; nonnegativity of the returned map is restored only by
the final filtering step, which keeps exactly the fields with positive
adjusted count. -/
theorem c1_amended (labels : List MagField) :
    (∀ f, 0 ≤ (afterRule2 labels).adj f) ∧
      (∀ f v, (f, v) ∈ finalCounts labels → 0 < v) := by
  refine ⟨afterRule2_nonneg labels, ?_⟩
  intro f v hm
  simp only [finalCounts, List.mem_map, List.mem_filter] at hm
  obtain ⟨g, ⟨-, hpos⟩, heq⟩ := hm
  rw [Prod.mk.injEq] at heq
  obtain ⟨rfl, rfl⟩ := heq
  exact of_decide_eq_true hpos

/-- C1 witness: the amended claim evaluated on the sequence
[天醫, 絕命, 天醫]. -/
theorem c1_witness :
    0 ≤ (afterRule2 [HeavenDoctor, Doom, HeavenDoctor]).adj HeavenDoctor ∧ (0 : Int) < 1 :=
  ⟨(c1_amended [HeavenDoctor, Doom, HeavenDoctor]).1 HeavenDoctor,
    (c1_amended [HeavenDoctor, Doom, HeavenDoctor]).2 HeavenDoctor 1 (by decide)⟩

/-- C9: every entry of the final adjusted map (the fields kept by the
`v > 0` filter) has a nonnegative count, and its field occurs in the label
sequence — i.e. was present in the raw tally. -/
theorem c9_adjusted_nonneg_and_subset_raw (labels : List MagField) (f : MagField) (v : Int)
    (hm : (f, v) ∈ finalCounts labels) : 0 ≤ v ∧ f ∈ labels := by
  simp only [finalCounts, List.mem_map, List.mem_filter] at hm
  obtain ⟨g, ⟨-, hpos⟩, heq⟩ := hm
  rw [Prod.mk.injEq] at heq
  obtain ⟨rfl, rfl⟩ := heq
  have hpos2 : 0 < (apply_advanced_rules labels).adj g := of_decide_eq_true hpos
  exact ⟨le_of_lt hpos2, rule5Go_pos labels labels.length 0 (afterRule4 labels)
    (fun g2 hg2 => afterRule4_pos labels g2 hg2) g hpos2⟩

/-- C9 witness: the invariant evaluated on the sequence [天醫, 絕命, 天醫],
whose final adjusted map is exactly {天醫: 1}. -/
theorem c9_witness :
    0 ≤ (1 : Int) ∧ HeavenDoctor ∈ [HeavenDoctor, Doom, HeavenDoctor] :=
  c9_adjusted_nonneg_and_subset_raw [HeavenDoctor, Doom, HeavenDoctor] HeavenDoctor 1 (by decide)

/-- C5: rule 4 does not consult the consumed-index set written by rule 3,
while rule 5 does.  Concretely, on [延年, 生氣, 天醫, 延年, 禍害, 五鬼] rule 3
consumes indices 0 and 1 (draining LifeForce to 0), yet rule 4 matches the
triplet at positions 1-3 and decrements LifeForce a second time, to -1.  On
[延年, 生氣, 伏位, 禍害] rule 3 likewise consumes indices 0 and 1; rule 5 then
skips them, leaving the counts untouched, whereas the same rule-5 scan started
with an empty consumed set absorbs the 伏位 run into LifeForce.  In general
the rule-5 scan only advances at a consumed position and a consumed index
never counts toward a 伏位 run. -/
theorem c5_rule4_ignores_consumed_rule5_respects :
    ((afterRule3 [Longevity, LifeForce, HeavenDoctor, Longevity, Calamity, FiveGhosts]).used
        = [0, 1] ∧
      (afterRule3 [Longevity, LifeForce, HeavenDoctor, Longevity, Calamity, FiveGhosts]).adj
        LifeForce = 0 ∧
      (afterRule4 [Longevity, LifeForce, HeavenDoctor, Longevity, Calamity, FiveGhosts]).adj
        LifeForce = -1) ∧
    ((afterRule4 [Longevity, LifeForce, Resting, Calamity]).used = [0, 1] ∧
      (apply_advanced_rules [Longevity, LifeForce, Resting, Calamity]).adj LifeForce = 0 ∧
      (apply_advanced_rules [Longevity, LifeForce, Resting, Calamity]).adj Resting = 1 ∧
      (rule5Go [Longevity, LifeForce, Resting, Calamity] 4 0
        { adj := (afterRule4 [Longevity, LifeForce, Resting, Calamity]).adj,
          used := [] }).adj LifeForce = 1 ∧
      (rule5Go [Longevity, LifeForce, Resting, Calamity] 4 0
        { adj := (afterRule4 [Longevity, LifeForce, Resting, Calamity]).adj,
          used := [] }).adj Resting = 0) ∧
    (∀ labels fuel i (st : RuleState), i ∈ st.used → i + 1 < labels.length →
      rule5Go labels (fuel + 1) i st = rule5Go labels fuel (i + 1) st) ∧
    (∀ labels used fuel j, j ∈ used → runLen labels used fuel j = 0) :=
  ⟨by decide, by decide,
    fun labels fuel i st hi h => rule5Go_skips_used labels fuel i st hi h,
    fun labels used fuel j hj => runLen_used labels used fuel j hj⟩

/-- C5 witness: the rule-5 skip behaviour evaluated at index 0, consumed set
{0}, on a two-label sequence. -/
theorem c5_witness :
    rule5Go [Resting, LifeForce] 1 0 { adj := fun _ => 0, used := [0] }
        = rule5Go [Resting, LifeForce] 0 1 { adj := fun _ => 0, used := [0] } ∧
      runLen [Resting] [0] 1 0 = 0 :=
  ⟨c5_rule4_ignores_consumed_rule5_respects.2.2.1 [Resting, LifeForce] 0 0
      { adj := fun _ => 0, used := [0] } (by decide) (by decide),
    c5_rule4_ignores_consumed_rule5_respects.2.2.2 [Resting] [0] 1 0 (by decide)⟩

/-! ## Supporting lemmas for the Synthesizer -/

theorem drainLoop_eq (k : CancelKey) :
    ∀ (n : Nat) (cf : CancelKey → Nat) (g : CancelKey),
      drainLoop k n cf g = cf g + if g = k then n else 0 := by
  intro n
  induction n with
  | zero => intro cf g; rw [drainLoop]; split <;> rfl
  | succ n ih =>
    intro cf g
    rw [drainLoop, ih]
    simp only [bumpK]
    split_ifs <;> omega

theorem drainCalamity_eq :
    ∀ (picks : List CancelKey) (cf : CancelKey → Nat) (g : CancelKey),
      drainCalamity picks cf g
        = cf g + (if g = CancelKey.shengQi then picks.length else 0) + picks.count g := by
  intro picks
  induction picks with
  | nil => intro cf g; rw [drainCalamity]; simp
  | cons r rest ih =>
    intro cf g
    rw [drainCalamity, ih]
    simp only [bumpK, List.count_cons, List.length_cons, beq_iff_eq]
    split_ifs <;> first | omega | simp_all

theorem choice_mem_or (rand : Nat → Nat) (n : Nat) (l : List α) (d : α) :
    choice rand n l d ∈ l ∨ choice rand n l d = d := by
  rcases l with - | ⟨a, tl⟩
  · exact Or.inr rfl
  · left
    have hpos : 0 < (a :: tl).length := List.length_pos.mpr (List.cons_ne_nil a tl)
    rw [choice, List.getD_eq_getElem _ d (Nat.mod_lt _ hpos)]
    exact List.getElem_mem _

theorem pairs_sub_allPairs (k : CancelKey) (p : Char × Char) (hp : p ∈ magneticic_pairs k) :
    p ∈ allPairs := by
  cases k with
  | tianYi => exact List.mem_flatMap.mpr ⟨CancelKey.tianYi, by decide, hp⟩
  | shengQi => exact List.mem_flatMap.mpr ⟨CancelKey.shengQi, by decide, hp⟩
  | fuWei => exact List.mem_flatMap.mpr ⟨CancelKey.fuWei, by decide, hp⟩
  | yanNian => exact List.mem_flatMap.mpr ⟨CancelKey.yanNian, by decide, hp⟩
  | compound => exact absurd hp (List.not_mem_nil p)

theorem dflt_mem_allPairs : ('0', '0') ∈ allPairs := by decide

theorem choice_pairs_mem (rand : Nat → Nat) (n : Nat) (k : CancelKey) :
    choice rand n (magneticic_pairs k) ('0', '0') ∈ allPairs := by
  rcases choice_mem_or rand n (magneticic_pairs k) ('0', '0') with h | h
  · exact pairs_sub_allPairs k _ h
  · rw [h]; exact dflt_mem_allPairs

theorem fallback_sub (d : Char) (p : Char × Char) (hp : p ∈ fallbackCandidates d) :
    p ∈ allPairs := by
  rw [fallbackCandidates, List.mem_flatMap] at hp
  obtain ⟨k, -, hk⟩ := hp
  exact pairs_sub_allPairs k p (List.mem_of_mem_filter hk)

theorem budget_sub (rem : CancelKey → Nat) (d : Char) (kp : CancelKey × (Char × Char))
    (hkp : kp ∈ budgetCandidates rem d) : kp.2 ∈ allPairs := by
  rw [budgetCandidates, List.mem_flatMap] at hkp
  obtain ⟨k, -, hk⟩ := hkp
  split at hk
  · exact absurd hk (List.not_mem_nil kp)
  · split at hk
    · rw [List.mem_map] at hk
      obtain ⟨p, hp, rfl⟩ := hk
      exact pairs_sub_allPairs k p (List.mem_of_mem_filter hp)
    · rw [List.mem_flatMap] at hk
      obtain ⟨c, -, hc⟩ := hk
      rw [List.mem_map] at hc
      obtain ⟨p, hp, rfl⟩ := hc
      exact pairs_sub_allPairs c p (List.mem_of_mem_filter hp)

theorem fallback_ne (p : Char × Char) (hp : p ∈ allPairs) : fallbackCandidates p.2 ≠ [] := by
  fin_cases hp <;> decide

theorem growGo_spec (rand : Nat → Nat) :
    ∀ fuel (st : ChainState), st.revSeq ≠ [] → st.revSeq.headD ('0', '0') ∈ allPairs →
      (growGo rand fuel st).revSeq.length = st.revSeq.length + fuel ∧
        (growGo rand fuel st).revSeq ≠ [] ∧
        (growGo rand fuel st).revSeq.headD ('0', '0') ∈ allPairs := by
  intro fuel
  induction fuel with
  | zero => intro st h1 h2; exact ⟨rfl, h1, h2⟩
  | succ fuel ih =>
    intro st h1 h2
    rw [growGo]
    dsimp only
    split
    · rename_i hemp
      rw [if_neg (by
        rw [ne_eq, ← List.isEmpty_iff] at *
        exact fun hh => fallback_ne _ h2 (List.isEmpty_iff.mp hh))]
      have hmem : choice rand st.idx (fallbackCandidates (st.revSeq.headD ('0', '0')).2)
          ('0', '0') ∈ allPairs := by
        rcases choice_mem_or rand st.idx (fallbackCandidates (st.revSeq.headD ('0', '0')).2)
            ('0', '0') with h | h
        · exact fallback_sub _ _ h
        · rw [h]; exact dflt_mem_allPairs
      obtain ⟨hl, hn, hh⟩ := ih
        ⟨choice rand st.idx (fallbackCandidates (st.revSeq.headD ('0', '0')).2) ('0', '0')
            :: st.revSeq, st.rem, st.idx + 1⟩
        (List.cons_ne_nil _ _) (by simpa using hmem)
      refine ⟨?_, hn, hh⟩
      simp only [List.length_cons] at hl
      rw [hl]
      omega
    · rename_i hemp
      have hmem : (choice rand st.idx (budgetCandidates st.rem (st.revSeq.headD ('0', '0')).2)
          (CancelKey.fuWei, ('0', '0'))).2 ∈ allPairs := by
        rcases choice_mem_or rand st.idx
            (budgetCandidates st.rem (st.revSeq.headD ('0', '0')).2)
            (CancelKey.fuWei, ('0', '0')) with h | h
        · exact budget_sub _ _ _ h
        · rw [h]; exact dflt_mem_allPairs
      obtain ⟨hl, hn, hh⟩ := ih
        ⟨(choice rand st.idx (budgetCandidates st.rem (st.revSeq.headD ('0', '0')).2)
            (CancelKey.fuWei, ('0', '0'))).2 :: st.revSeq,
          decK st.rem (choice rand st.idx (budgetCandidates st.rem (st.revSeq.headD ('0', '0')).2)
            (CancelKey.fuWei, ('0', '0'))).1, st.idx + 1⟩
        (List.cons_ne_nil _ _) (by simpa using hmem)
      refine ⟨?_, hn, hh⟩
      simp only [List.length_cons] at hl
      rw [hl]
      omega

theorem pickStart_mem (rand : Nat → Nat) :
    ∀ (l : List CancelKey) (rem : CancelKey → Nat) (n : Nat) (p : Char × Char)
      (rem2 : CancelKey → Nat) (n2 : Nat),
      pickStart rand l rem n = some (p, rem2, n2) → p ∈ allPairs := by
  intro l
  induction l with
  | nil => intro rem n p rem2 n2 h; exact absurd h (by rw [pickStart]; simp)
  | cons k rest ih =>
    intro rem n p rem2 n2 h
    rw [pickStart] at h
    split at h
    · split at h
      · rw [Option.some.injEq, Prod.mk.injEq] at h
        exact h.1 ▸ choice_pairs_mem rand (n + 1) _
      · rw [Option.some.injEq, Prod.mk.injEq] at h
        exact h.1 ▸ choice_pairs_mem rand n _
    · exact ih rem n p rem2 n2 h

theorem startChain_spec (rand : Nat → Nat) (shuffle : Nat → List CancelKey → List CancelKey)
    (cf : CancelKey → Nat) (n : Nat) :
    ∃ p ∈ allPairs, (startChain rand shuffle cf n).revSeq = [p] := by
  rw [startChain]
  dsimp only
  split
  · rename_i p rem2 n2 heq
    exact ⟨p, pickStart_mem rand _ _ _ p rem2 n2 heq, rfl⟩
  · exact ⟨_, choice_pairs_mem rand (n + 2) _, rfl⟩

theorem renderChain_len (l : List (Char × Char)) (h : l ≠ []) :
    (renderChain l).length = l.length + 1 := by
  rcases l with - | ⟨p, rest⟩
  · exact absurd rfl h
  · simp [renderChain]

theorem chain_len (rand : Nat → Nat) (shuffle : Nat → List CancelKey → List CancelKey)
    (cf : CancelKey → Nat) (n : Nat) (length : Int) (h2 : 2 ≤ length) :
    ((generate_lucky_number_chain_by_cancel_fields rand shuffle cf length n).1.length : Int)
      = length := by
  rw [generate_lucky_number_chain_by_cancel_fields]
  dsimp only
  obtain ⟨p, hp, hrev⟩ := startChain_spec rand shuffle cf n
  obtain ⟨hl, hn, -⟩ := growGo_spec rand (length - 2).toNat (startChain rand shuffle cf n)
    (by rw [hrev]; exact List.cons_ne_nil p []) (by rw [hrev]; exact hp)
  rw [renderChain_len _ (by rwa [ne_eq, List.reverse_eq_nil_iff, ← ne_eq]),
    List.length_reverse, hl, hrev]
  have ht : ((length - 2).toNat : Int) = length - 2 := Int.toNat_of_nonneg (by omega)
  simp only [List.length_cons, List.length_nil]
  push_cast
  omega

theorem chainsLoop_mem (rand : Nat → Nat) (shuffle : Nat → List CancelKey → List CancelKey)
    (cf : CancelKey → Nat) (length : Int) :
    ∀ (count n : Nat) (x : List Char),
      x ∈ (chainsLoop rand shuffle cf length count n).1 →
      ∃ m, x = (generate_lucky_number_chain_by_cancel_fields rand shuffle cf length m).1 := by
  intro count
  induction count with
  | zero => intro n x hx; exact absurd hx (List.not_mem_nil x)
  | succ count ih =>
    intro n x hx
    rw [chainsLoop] at hx
    rcases List.mem_cons.mp hx with h | h
    · exact ⟨n, h⟩
    · exact ih _ x h


/-! ## Claims about the Synthesizer -/

/-- C6: the compensation budget is derived from the adjusted counts exactly
as specified: the 天醫 (HeavenDoctor) budget equals adjusted[絕命/Doom]; the
延年 (Longevity) budget equals adjusted[六煞/SixEvils] plus its share of the
random Calamity bonuses; the compound triple requirement equals
adjusted[五鬼/FiveGhosts]; and every unit of adjusted[禍害/Calamity]
contributes +1 to 生氣 (LifeForce) plus one extra +1 to the sampled member of
{生氣, 伏位, 延年} — `picks` records the samples, one per Calamity unit. -/
theorem c6_compensation_budget (fields : MagField → Int) (picks : List CancelKey)
    (hlen : picks.length = (fields Calamity).toNat)
    (hmem : ∀ r ∈ picks,
      r = CancelKey.shengQi ∨ r = CancelKey.fuWei ∨ r = CancelKey.yanNian) :
    generate_lucky_numbers fields picks CancelKey.tianYi = (fields Doom).toNat ∧
      generate_lucky_numbers fields picks CancelKey.yanNian
        = (fields SixEvils).toNat + picks.count CancelKey.yanNian ∧
      generate_lucky_numbers fields picks CancelKey.compound = (fields FiveGhosts).toNat ∧
      generate_lucky_numbers fields picks CancelKey.shengQi
        = (fields Calamity).toNat + picks.count CancelKey.shengQi ∧
      generate_lucky_numbers fields picks CancelKey.fuWei = picks.count CancelKey.fuWei := by
  have h1 : CancelKey.tianYi ∉ picks := fun hm => by
    rcases hmem _ hm with h | h | h <;> exact absurd h (by decide)
  have h2 : CancelKey.compound ∉ picks := fun hm => by
    rcases hmem _ hm with h | h | h <;> exact absurd h (by decide)
  have hc1 : picks.count CancelKey.tianYi = 0 := List.count_eq_zero.mpr h1
  have hc2 : picks.count CancelKey.compound = 0 := List.count_eq_zero.mpr h2
  simp only [generate_lucky_numbers, drainCalamity_eq, drainLoop_eq]
  refine ⟨?_, ?_, ?_, ?_, ?_⟩ <;> simp [hc1, hc2, hlen]

/-- C6 witness: the budget equations evaluated with every adjusted count 1 and
the single Calamity sample 伏位. -/
theorem c6_witness :
    generate_lucky_numbers (fun _ => 1) [CancelKey.fuWei] CancelKey.tianYi
        = (1 : Int).toNat ∧
      generate_lucky_numbers (fun _ => 1) [CancelKey.fuWei] CancelKey.yanNian
        = (1 : Int).toNat + [CancelKey.fuWei].count CancelKey.yanNian ∧
      generate_lucky_numbers (fun _ => 1) [CancelKey.fuWei] CancelKey.compound
        = (1 : Int).toNat ∧
      generate_lucky_numbers (fun _ => 1) [CancelKey.fuWei] CancelKey.shengQi
        = (1 : Int).toNat + [CancelKey.fuWei].count CancelKey.shengQi ∧
      generate_lucky_numbers (fun _ => 1) [CancelKey.fuWei] CancelKey.fuWei
        = [CancelKey.fuWei].count CancelKey.fuWei :=
  c6_compensation_budget (fun _ => 1) [CancelKey.fuWei] (by decide) (by decide)

/-- C10: chain growth never dead-ends.  No catalogue pair contains the digit
`5`; the 伏位 (Resting) catalogue contains the doubled pair `dd` for every
digit `d` other than `5`; the unrestricted fallback always finds an
adjacency-matching pair for any digit reachable as the second character of a
catalogue pair; and consequently, for every budget map, random stream and
target length ≥ 2, the generated numeral (before affix splicing) has exactly
the target length. -/
theorem c10_chain_never_dead_ends :
    (∀ p ∈ allPairs, p.1 ≠ '5' ∧ p.2 ≠ '5') ∧
    (∀ d ∈ ['0', '1', '2', '3', '4', '5', '6', '7', '8', '9'], d ≠ '5' →
      (d, d) ∈ magneticic_pairs CancelKey.fuWei) ∧
    (∀ p ∈ allPairs, fallbackCandidates p.2 ≠ []) ∧
    (∀ (rand : Nat → Nat) (shuffle : Nat → List CancelKey → List CancelKey)
      (cf : CancelKey → Nat) (n : Nat) (length : Int), 2 ≤ length →
      ((generate_lucky_number_chain_by_cancel_fields rand shuffle cf length n).1.length : Int)
        = length) :=
  ⟨by decide, by decide, fun p hp => fallback_ne p hp,
    fun rand shuffle cf n length h2 => chain_len rand shuffle cf n length h2⟩

/-- C10 witness: the no-`5` property at the pair `00` and the exact-length
guarantee at budget 0, the zero random stream and target length 4. -/
theorem c10_witness :
    ((('0', '0') : Char × Char).1 ≠ '5' ∧ (('0', '0') : Char × Char).2 ≠ '5') ∧
      ((generate_lucky_number_chain_by_cancel_fields (fun _ => 0) (fun _ l => l)
        (fun _ => 0) 4 0).1.length : Int) = 4 :=
  ⟨c10_chain_never_dead_ends.1 ('0', '0') (by decide),
    c10_chain_never_dead_ends.2.2.2 (fun _ => 0) (fun _ l => l) (fun _ => 0) 0 4 (by decide)⟩

/-- C7 counterexample: the claim fails for requested length 3 with the
two-character affix `AB` at End (a valid configuration by the claim's own
`len(affixValue) < length` premise).  The working length is 1, but the chain
generator always emits at least one pair (two characters), so the spliced
numeral `00AB` has length 4, not 3. -/
theorem c7_counterexample :
    generate_full_lucky_numbers (fun _ => 0) (fun _ l => l) (fun _ => 0) 3
        FixDigitsPosition.END ['A', 'B'] 1 0 = [['0', '0', 'A', 'B']] ∧
      ¬ ((['0', '0', 'A', 'B'] : List Char).length : Int) = 3 := by
  decide

/-- C7 amended: for every adjusted CountMap, random stream, candidate count
and requested length with `len(affixValue) ≤ length - 2` (here the affix
`AB`, so `4 ≤ length`), every synthesized numeral ends in the affix and has
total length exactly the requested length.  (For `length - len(affixValue) = 1`
the numeral is one character longer than requested, as the counterexample
shows.) -/
theorem c7_end_affix (rand : Nat → Nat) (shuffle : Nat → List CancelKey → List CancelKey)
    (adjusted : MagField → Int) (length : Int) (count n : Nat) (hlen : 4 ≤ length) :
    ∀ r ∈ generate_full_lucky_numbers rand shuffle adjusted length
        FixDigitsPosition.END ['A', 'B'] count n,
      (r.length : Int) = length ∧ r.drop (r.length - 2) = ['A', 'B'] := by
  intro r hr
  rw [generate_full_lucky_numbers] at hr
  simp only [ne_eq] at hr
  rw [if_pos (by decide : ¬ FixDigitsPosition.END = FixDigitsPosition.NONE),
    if_neg (by decide : ¬ FixDigitsPosition.END = FixDigitsPosition.NONE)] at hr
  obtain ⟨rec, hrec, rfl⟩ := List.mem_map.mp hr
  rw [generate_multiple_lucky_numbers] at hrec
  obtain ⟨m, rfl⟩ := chainsLoop_mem rand shuffle _ _ count _ rec hrec
  have hcl : (((generate_lucky_number_chain_by_cancel_fields rand shuffle
      (generate_lucky_numbers adjusted
        (calamityPicks rand n (adjusted Calamity).toNat))
      (length - ↑(['A', 'B'] : List Char).length) m).1).length : Int)
      = length - ↑(['A', 'B'] : List Char).length :=
    chain_len rand shuffle _ m _ (by simp; omega)
  constructor
  · simp only [List.length_append] at hcl ⊢
    simp only [List.length_cons, List.length_nil] at hcl ⊢
    push_cast at hcl ⊢
    omega
  · have hgen : ∀ (l : List Char),
        (l ++ ['A', 'B']).drop ((l ++ ['A', 'B']).length - 2) = ['A', 'B'] := by
      intro l
      rw [List.length_append]
      simp only [List.length_cons, List.length_nil]
      rw [show l.length + (0 + 1 + 1) - 2 = l.length from by omega]
      exact List.drop_left _ _
    exact hgen _

/-- C7 witness: the amended End-affix guarantee evaluated at length 4, budget
0 and the zero random stream, whose only candidate is `00AB`. -/
theorem c7_witness :
    ((['0', '0', 'A', 'B'] : List Char).length : Int) = 4 ∧
      (['0', '0', 'A', 'B'] : List Char).drop
        ((['0', '0', 'A', 'B'] : List Char).length - 2) = ['A', 'B'] :=
  c7_end_affix (fun _ => 0) (fun _ l => l) (fun _ => 0) 4 1 0 (by decide)
    ['0', '0', 'A', 'B'] (by decide)

/-! ## Claims about configuration validation -/

/-- C8 counterexample: the claim that `candidateCount <= 0` is rejected with
an error before generation starts is false — no candidate count is part of the
validated request (`validate_all` never examines one; here a fully valid
request produces zero errors), and running the generator with a candidate
count of 0 silently returns an empty list rather than an error. -/
theorem c8_counterexample :
    validate_all [] 4 FixDigitsPosition.NONE [] = [] ∧
      (generate_multiple_lucky_numbers (fun _ => 0) (fun _ l => l) (fun _ => 0) 4 0 0).1
        = [] :=
  ⟨rfl, rfl⟩

/-- C8 amended: configuration is validated eagerly by `validate_all` (run by
the input controller before any generation): a non-positive requested length
(indeed any length ≤ 1) is rejected with an error, and — when an affix
position is requested — so is `len(affixValue) >= length`; the candidate
count, by contrast, is fixed by the caller rather than validated, and a
non-positive candidate count makes the generator return an empty list without
any error. -/
theorem c8_eager_validation (typeErrors : List String) (dl : Int) (pos : FixDigitsPosition)
    (fixed : List Char) :
    (dl ≤ 0 → validate_all typeErrors dl pos fixed ≠ []) ∧
    (pos ≠ FixDigitsPosition.NONE → dl ≤ (fixed.length : Int) →
      validate_all typeErrors dl pos fixed ≠ []) ∧
    (∀ (rand : Nat → Nat) (shuffle : Nat → List CancelKey → List CancelKey)
      (adjusted : MagField → Int) (length : Int) (n : Nat),
      (generate_multiple_lucky_numbers rand shuffle adjusted length 0 n).1 = []) := by
  refine ⟨?_, ?_, fun rand shuffle adjusted length n => rfl⟩
  · intro hdl
    have hv : ¬ is_valid_digit_length dl = true := by
      rw [is_valid_digit_length]
      simp only [decide_eq_true_eq]
      omega
    simp only [validate_all, if_pos hv]
    split_ifs <;> simp
  · intro hpos hle
    by_cases hv : is_valid_digit_length dl = true
    · have hcond : ¬ (¬ is_valid_digit_length dl = true) := by simp [hv]
      simp only [validate_all, if_neg hcond, if_pos hpos]
      split_ifs <;> try simp
      rename_i hh
      exact absurd hle (by simpa using hh)
    · simp only [validate_all, if_pos (by simpa using hv)]
      split_ifs <;> simp

/-- C8 witness: rejection of length 0, rejection of a 4-character affix with
requested length 4, and the silent empty result of a zero-candidate run. -/
theorem c8_witness :
    validate_all [] 0 FixDigitsPosition.NONE [] ≠ [] ∧
      validate_all [] 4 FixDigitsPosition.END ['1', '2', '3', '4'] ≠ [] ∧
      (generate_multiple_lucky_numbers (fun _ => 0) (fun _ l => l) (fun _ => 0) 5 0 3).1
        = [] :=
  ⟨(c8_eager_validation [] 0 FixDigitsPosition.NONE []).1 (by decide),
    (c8_eager_validation [] 4 FixDigitsPosition.END ['1', '2', '3', '4']).2.1
      (by decide) (by decide),
    (c8_eager_validation [] 4 FixDigitsPosition.NONE []).2.2 (fun _ => 0) (fun _ l => l)
      (fun _ => 0) 5 3⟩
